import Mathlib

/-!
Verification of the interpresure_scripture_analysis pipeline.

The development embeds the repository's report-coalescing engine
(src/report/coalesce.py), the debate grouping step (src/teams/debate.py),
the independent analysis/review loop (src/teams/analysis.py with the
pydantic schema from src/agents/critic.py), and the custom termination
condition of chat2.py, together with a model of the JSON values the
pipeline passes around.  Python's `json.dumps` / `json.loads` are modelled
by an executable serializer `encVal` and a fuel-bounded recursive-descent
reader `parseVal` over the whitespace-free JSON grammar (the repository
only ever reads back what it wrote, and the claims do not depend on
inter-token whitespace); the two are related by a proved round-trip
theorem.  Python strings are modelled as `List Char`.
-/

mutual

/-- JSON values, mutually inductive with JSON sequences and JSON objects so
that all functions over them can be defined by structural recursion. -/
inductive Json where
  | null : Json
  | bool (b : Bool) : Json
  | num (n : Int) : Json
  | str (s : List Char) : Json
  | arr (xs : JList) : Json
  | obj (kvs : JObj) : Json
deriving DecidableEq

inductive JList where
  | nil : JList
  | cons (hd : Json) (tl : JList) : JList
deriving DecidableEq

inductive JObj where
  | nil : JObj
  | cons (k : List Char) (v : Json) (tl : JObj) : JObj
deriving DecidableEq

end

/-- Convert a `JList` to an ordinary Lean list (a Python list of values). -/
def JList.toList : JList → List Json
  | .nil => []
  | .cons x t => x :: JList.toList t

/-- Convert an ordinary list back into a `JList`. -/
def JList.ofList : List Json → JList
  | [] => .nil
  | x :: t => .cons x (JList.ofList t)

theorem JList.toList_ofList (l : List Json) : (JList.ofList l).toList = l := by
  induction l with
  | nil => rfl
  | cons x t ih => simp [JList.ofList, JList.toList, ih]

/-- Key lookup in a JSON object with Python `dict` semantics: `json.loads`
builds a dict in which a repeated key keeps its last occurrence, so lookup
returns the value of the last matching key. -/
def JObj.lookup : JObj → List Char → Option Json
  | .nil, _ => none
  | .cons k v t, key =>
    match JObj.lookup t key with
    | some r => some r
    | none => if k = key then some v else none

/-- Membership test for a key, `key in dict` in Python. -/
def JObj.hasKey (kvs : JObj) (key : List Char) : Bool :=
  (JObj.lookup kvs key).isSome

/-- Python `dict.get(key, default)`. -/
def JObj.getD (kvs : JObj) (key : List Char) (dflt : Json) : Json :=
  (JObj.lookup kvs key).getD dflt

/-- The keys of a JSON object in iteration order (`for k in dict`), keeping
the first position of each key. -/
def JObj.keys : JObj → List (List Char)
  | .nil => []
  | .cons k _ t => if (JObj.keys t).contains k then JObj.keys t else k :: JObj.keys t

/-- Decimal digit to character. -/
def digitChar : Nat → Char
  | 0 => '0'
  | 1 => '1'
  | 2 => '2'
  | 3 => '3'
  | 4 => '4'
  | 5 => '5'
  | 6 => '6'
  | 7 => '7'
  | 8 => '8'
  | _ => '9'

/-- Character to decimal digit value. -/
def charDigit (c : Char) : Nat := c.toNat - 48

/-- Decimal rendering of a positive natural, fuel-driven so that it is
structurally recursive (fuel `n` always suffices for input `n`). -/
def natCharsAux : Nat → Nat → List Char
  | 0, _ => []
  | fuel + 1, n => if n = 0 then [] else natCharsAux fuel (n / 10) ++ [digitChar (n % 10)]

/-- Decimal rendering of a natural number. -/
def natChars (n : Nat) : List Char := if n = 0 then ['0'] else natCharsAux n n

/-- Decimal reading of a digit string. -/
def charsNat (ds : List Char) : Nat := ds.foldl (fun a c => 10 * a + charDigit c) 0

/-- Serialization of an integer (Python `json.dumps` for ints). -/
def encNum (n : Int) : List Char :=
  if n < 0 then '-' :: natChars n.natAbs else natChars n.natAbs

/-- Escape a character inside a JSON string literal: the model escapes the
quote and the backslash, the two escapes the round trip depends on. -/
def escChar (c : Char) : List Char :=
  if c = '"' || c = '\\' then ['\\', c] else [c]

/-- Body of a JSON string literal including the closing quote. -/
def encStrBody : List Char → List Char
  | [] => ['"']
  | c :: cs => escChar c ++ encStrBody cs

/-- A JSON string literal. -/
def encStr (s : List Char) : List Char := '"' :: encStrBody s

mutual

/-- Serializer for JSON values, the model of `json.dumps` (without
inter-token whitespace). -/
def encVal : Json → List Char
  | .null => "null".data
  | .bool true => "true".data
  | .bool false => "false".data
  | .num n => encNum n
  | .str s => encStr s
  | .arr xs => '[' :: encItems xs
  | .obj kvs => '\x7b' :: encFields kvs

/-- Serializer for the tail of an array: elements separated by commas and
terminated by the closing bracket. -/
def encItems : JList → List Char
  | .nil => [']']
  | .cons x .nil => encVal x ++ [']']
  | .cons x t => encVal x ++ ',' :: encItems t

/-- Serializer for the tail of an object. -/
def encFields : JObj → List Char
  | .nil => ['\x7d']
  | .cons k v .nil => encStr k ++ ':' :: (encVal v ++ ['\x7d'])
  | .cons k v t => encStr k ++ ':' :: (encVal v ++ ',' :: encFields t)

end

/-- Reader for the body of a JSON string literal (after the opening quote). -/
def parseStrBody : List Char → Option (List Char × List Char)
  | [] => none
  | c :: cs =>
    if c = '\\' then
      match cs with
      | [] => none
      | d :: cs2 =>
        match parseStrBody cs2 with
        | none => none
        | some (s, r) => some (d :: s, r)
    else if c = '"' then some ([], cs)
    else
      match parseStrBody cs with
      | none => none
      | some (s, r) => some (c :: s, r)

/-- Split a leading run of decimal digits off a character list. -/
def takeDigits : List Char → List Char × List Char
  | [] => ([], [])
  | c :: cs =>
    if c.isDigit then
      let p := takeDigits cs
      (c :: p.1, p.2)
    else ([], c :: cs)

/-- Reader for a JSON number (integer grammar; the pipeline only ever
carries integer scores). -/
def parseNum (cs : List Char) : Option (Json × List Char) :=
  match cs with
  | [] => none
  | c :: cs2 =>
    if c = '-' then
      let p := takeDigits cs2
      if p.1.isEmpty then none else some (.num (-(charsNat p.1 : Int)), p.2)
    else
      let p := takeDigits (c :: cs2)
      if p.1.isEmpty then none else some (.num ((charsNat p.1 : Int)), p.2)

mutual

/-- Fuel-bounded recursive-descent reader for a JSON value, the model of
`json.loads` on the grammar produced by `encVal`. -/
def parseVal : Nat → List Char → Option (Json × List Char)
  | 0, _ => none
  | fuel + 1, cs =>
    match cs with
    | [] => none
    | c :: rest =>
      if c = 'n' then
        match rest with
        | c1 :: c2 :: c3 :: r =>
          if c1 = 'u' && c2 = 'l' && c3 = 'l' then some (.null, r) else none
        | _ => none
      else if c = 't' then
        match rest with
        | c1 :: c2 :: c3 :: r =>
          if c1 = 'r' && c2 = 'u' && c3 = 'e' then some (.bool true, r) else none
        | _ => none
      else if c = 'f' then
        match rest with
        | c1 :: c2 :: c3 :: c4 :: r =>
          if c1 = 'a' && c2 = 'l' && c3 = 's' && c4 = 'e' then some (.bool false, r)
          else none
        | _ => none
      else if c = '"' then
        match parseStrBody rest with
        | none => none
        | some (s, r) => some (.str s, r)
      else if c = '[' then
        match parseItems fuel rest with
        | none => none
        | some (xs, r) => some (.arr xs, r)
      else if c = '\x7b' then
        match parseFields fuel rest with
        | none => none
        | some (kvs, r) => some (.obj kvs, r)
      else if c = '-' || c.isDigit then parseNum (c :: rest)
      else none

/-- Reader for the elements of an array up to and including the closing
bracket. -/
def parseItems : Nat → List Char → Option (JList × List Char)
  | 0, _ => none
  | fuel + 1, cs =>
    match cs with
    | [] => none
    | c :: cs2 =>
      if c = ']' then some (.nil, cs2)
      else
        match parseVal fuel (c :: cs2) with
        | none => none
        | some (v, r) =>
          match r with
          | [] => none
          | c2 :: r2 =>
            if c2 = ',' then
              match parseItems fuel r2 with
              | none => none
              | some (t, r3) => some (.cons v t, r3)
            else if c2 = ']' then some (.cons v .nil, r2)
            else none

/-- Reader for the fields of an object up to and including the closing
brace. -/
def parseFields : Nat → List Char → Option (JObj × List Char)
  | 0, _ => none
  | fuel + 1, cs =>
    match cs with
    | [] => none
    | c :: cs2 =>
      if c = '\x7d' then some (.nil, cs2)
      else if c = '"' then
        match parseStrBody cs2 with
        | none => none
        | some (k, r) =>
          match r with
          | [] => none
          | c2 :: r2 =>
            if c2 = ':' then
              match parseVal fuel r2 with
              | none => none
              | some (v, r3) =>
                match r3 with
                | [] => none
                | c3 :: r4 =>
                  if c3 = ',' then
                    match parseFields fuel r4 with
                    | none => none
                    | some (t, r5) => some (.cons k v t, r5)
                  else if c3 = '\x7d' then some (.cons k v .nil, r4)
                  else none
            else none
      else none

end

/-- The model of `json.loads` on a character list: run the reader with
fuel one more than the input length (each nesting level of the grammar
consumes at least one character per reader call, so this fuel is never
the cause of a failure on serializer output, as the round-trip theorem
shows) and require the whole input to be consumed. -/
def jsonParse (cs : List Char) : Option Json :=
  match parseVal (cs.length + 1) cs with
  | some (j, []) => some j
  | _ => none

/-! ### Round trip of the JSON model -/

theorem charDigit_digitChar (d : Nat) (hd : d < 10) : charDigit (digitChar d) = d := by
  interval_cases d <;> decide

theorem isDigit_digitChar (d : Nat) : (digitChar d).isDigit = true := by
  unfold digitChar
  split <;> decide

theorem charsNat_append (xs : List Char) (c : Char) :
    charsNat (xs ++ [c]) = 10 * charsNat xs + charDigit c := by
  simp [charsNat, List.foldl_append]

theorem natCharsAux_zero (k : Nat) : natCharsAux k 0 = [] := by
  cases k <;> simp [natCharsAux]

theorem natCharsAux_spec : ∀ fuel n, 0 < n → n ≤ fuel →
    (∀ c ∈ natCharsAux fuel n, c.isDigit = true) ∧
      natCharsAux fuel n ≠ [] ∧ charsNat (natCharsAux fuel n) = n := by
  intro fuel
  induction fuel with
  | zero => intro n h1 h2; omega
  | succ k ih =>
    intro n h1 h2
    have hn : ¬ n = 0 := by omega
    have heq : natCharsAux (k + 1) n = natCharsAux k (n / 10) ++ [digitChar (n % 10)] := by
      simp [natCharsAux, hn]
    by_cases hq : n / 10 = 0
    · have h10 : n % 10 = n := by omega
      rw [heq, hq, natCharsAux_zero]
      refine ⟨?_, by simp, ?_⟩
      · intro c hc
        simp at hc
        rw [hc]; exact isDigit_digitChar (n % 10)
      · rw [List.nil_append]
        have : ([] : List Char) ++ [digitChar (n % 10)] = [digitChar (n % 10)] := rfl
        rw [show [digitChar (n % 10)] = ([] : List Char) ++ [digitChar (n % 10)] from rfl,
          charsNat_append, charDigit_digitChar (n % 10) (by omega)]
        simp [charsNat]; omega
    · have hpos : 0 < n / 10 := Nat.pos_of_ne_zero hq
      have hlt : n / 10 < n := Nat.div_lt_self h1 (by omega)
      obtain ⟨ihd, ihne, ihval⟩ := ih (n / 10) hpos (by omega)
      rw [heq]
      refine ⟨?_, by simp, ?_⟩
      · intro c hc
        rcases List.mem_append.mp hc with h | h
        · exact ihd c h
        · simp at h; rw [h]; exact isDigit_digitChar (n % 10)
      · rw [charsNat_append, ihval, charDigit_digitChar (n % 10) (by omega)]
        omega

theorem natChars_spec (n : Nat) :
    (∀ c ∈ natChars n, c.isDigit = true) ∧ natChars n ≠ [] ∧
      charsNat (natChars n) = n := by
  by_cases h : n = 0
  · subst h
    refine ⟨?_, by simp [natChars], by decide⟩
    intro c hc
    simp [natChars] at hc
    rw [hc]; decide
  · simpa [natChars, h] using natCharsAux_spec n n (by omega) (le_refl n)

/-- A continuation is a safe delimiter for the number reader if it does not
begin with a digit (inside serializer output it begins with a bracket, a
brace, a comma, or is empty). -/
def delimOk : List Char → Bool
  | [] => true
  | c :: _ => !c.isDigit

theorem digit_not_special (c : Char) (h : c.isDigit = true) :
    c ≠ 'n' ∧ c ≠ 't' ∧ c ≠ 'f' ∧ c ≠ '"' ∧ c ≠ '[' ∧ c ≠ '\x7b' ∧
      c ≠ ']' ∧ c ≠ '\x7d' ∧ c ≠ ',' ∧ c ≠ '-' := by
  refine ⟨?_, ?_, ?_, ?_, ?_, ?_, ?_, ?_, ?_, ?_⟩ <;>
    (rintro rfl; exact absurd h (by decide))

theorem takeDigits_append (ds rest : List Char)
    (hds : ∀ c ∈ ds, c.isDigit = true) (hrest : delimOk rest = true) :
    takeDigits (ds ++ rest) = (ds, rest) := by
  induction ds with
  | nil =>
    cases rest with
    | nil => rfl
    | cons c cs =>
      have : c.isDigit = false := by
        simp [delimOk] at hrest; exact hrest
      simp [takeDigits, this]
  | cons d ds ih =>
    have hd : d.isDigit = true := hds d (by simp)
    have ih2 := ih (fun c hc => hds c (by simp [hc]))
    simp [takeDigits, hd, ih2]

theorem parseNum_enc (n : Int) (rest : List Char) (hrest : delimOk rest = true) :
    parseNum (encNum n ++ rest) = some (.num n, rest) := by
  obtain ⟨hdig, hne, hval⟩ := natChars_spec n.natAbs
  have hie : (natChars n.natAbs).isEmpty = false := by
    cases h : natChars n.natAbs with
    | nil => exact absurd h hne
    | cons a b => rfl
  have htd := takeDigits_append (natChars n.natAbs) rest hdig hrest
  by_cases hn : n < 0
  · simp only [encNum, if_pos hn, List.cons_append, parseNum, if_true]
    rw [htd]
    simp only [hie]
    simp only [Bool.false_eq_true, if_false, hval, Option.some.injEq, Json.num.injEq,
      Prod.mk.injEq, and_true]
    omega
  · simp only [encNum, if_neg hn]
    cases h : natChars n.natAbs with
    | nil => exact absurd h hne
    | cons a b =>
      have ha : a.isDigit = true := hdig a (by simp [h])
      have hnotdash : ¬ a = '-' := (digit_not_special a ha).2.2.2.2.2.2.2.2.2
      rw [h] at htd hie hval
      simp only [List.cons_append, parseNum, if_neg hnotdash]
      rw [← List.cons_append, htd]
      simp only [hie]
      simp only [Bool.false_eq_true, if_false, hval, Option.some.injEq, Json.num.injEq,
        Prod.mk.injEq, and_true]
      omega

theorem parseStrBody_enc (s rest : List Char) :
    parseStrBody (encStrBody s ++ rest) = some (s, rest) := by
  induction s with
  | nil =>
    show parseStrBody ('"' :: rest) = some ([], rest)
    rw [parseStrBody.eq_def]
    simp
  | cons c cs ih =>
    by_cases h : c = '"' || c = '\\'
    · have : escChar c = ['\\', c] := by simp [escChar, h]
      simp [encStrBody, this, parseStrBody, ih]
    · have hq : ¬ c = '"' := by
        intro hc; rw [hc] at h; simp at h
      have hb : ¬ c = '\\' := by
        intro hc; rw [hc] at h; simp at h
      have hesc : escChar c = [c] := by simp [escChar, hq, hb]
      rw [encStrBody, hesc]
      show parseStrBody (c :: (encStrBody cs ++ rest)) = some (c :: cs, rest)
      rw [parseStrBody.eq_def]
      simp only []
      rw [if_neg hb, if_neg hq, ih]

mutual

/-- Reader-call measure of a JSON value: an upper bound on the fuel the
reader needs to consume its serialization. -/
def sizeV : Json → Nat
  | .null => 1
  | .bool _ => 1
  | .num _ => 1
  | .str _ => 1
  | .arr xs => 1 + sizeL xs
  | .obj kvs => 1 + sizeF kvs

/-- Reader-call measure of an array tail. -/
def sizeL : JList → Nat
  | .nil => 1
  | .cons x t => 1 + max (sizeV x) (sizeL t)

/-- Reader-call measure of an object tail. -/
def sizeF : JObj → Nat
  | .nil => 1
  | .cons _ v t => 1 + max (sizeV v) (sizeF t)

end

theorem sizeV_pos (j : Json) : 1 ≤ sizeV j := by
  cases j <;> simp [sizeV]

theorem sizeL_pos (xs : JList) : 1 ≤ sizeL xs := by
  cases xs <;> simp [sizeL]

theorem sizeF_pos (kvs : JObj) : 1 ≤ sizeF kvs := by
  cases kvs <;> simp [sizeF]

theorem encNum_head (n : Int) : ∃ c t, encNum n = c :: t ∧
    (c = '-' || c.isDigit) = true ∧ ¬ c = 'n' ∧ ¬ c = 't' ∧ ¬ c = 'f' ∧
    ¬ c = '"' ∧ ¬ c = '[' ∧ ¬ c = '\x7b' ∧ ¬ c = ']' := by
  by_cases hn : n < 0
  · refine ⟨'-', natChars n.natAbs, by simp [encNum, hn], by decide, ?_⟩
    refine ⟨by decide, by decide, by decide, by decide, by decide, by decide, by decide⟩
  · obtain ⟨hdig, hne, _⟩ := natChars_spec n.natAbs
    cases h : natChars n.natAbs with
    | nil => exact absurd h hne
    | cons a b =>
      have ha : a.isDigit = true := hdig a (by simp [h])
      obtain ⟨h1, h2, h3, h4, h5, h6, h7, _, _, _⟩ := digit_not_special a ha
      exact ⟨a, b, by simp [encNum, hn, h], by simp [ha], h1, h2, h3, h4, h5, h6, h7⟩

theorem encVal_head (j : Json) : ∃ c t, encVal j = c :: t ∧ ¬ c = ']' := by
  cases j with
  | null => exact ⟨'n', ['u', 'l', 'l'], rfl, by decide⟩
  | bool b =>
    cases b with
    | false => exact ⟨'f', ['a', 'l', 's', 'e'], rfl, by decide⟩
    | true => exact ⟨'t', ['r', 'u', 'e'], rfl, by decide⟩
  | num n =>
    obtain ⟨c, t, hct, _, _, _, _, _, _, _, h9⟩ := encNum_head n
    exact ⟨c, t, by simp [encVal, hct], h9⟩
  | str s => exact ⟨'"', encStrBody s, rfl, by decide⟩
  | arr xs => exact ⟨'[', encItems xs, rfl, by decide⟩
  | obj kvs => exact ⟨'\x7b', encFields kvs, rfl, by decide⟩

theorem parse_enc (fuel : Nat) :
    (∀ j rest, sizeV j ≤ fuel → delimOk rest = true →
       parseVal fuel (encVal j ++ rest) = some (j, rest)) ∧
    (∀ xs rest, sizeL xs ≤ fuel →
       parseItems fuel (encItems xs ++ rest) = some (xs, rest)) ∧
    (∀ kvs rest, sizeF kvs ≤ fuel →
       parseFields fuel (encFields kvs ++ rest) = some (kvs, rest)) := by
  induction fuel with
  | zero =>
    refine ⟨fun j rest h _ => absurd h (by have := sizeV_pos j; omega),
      fun xs rest h => absurd h (by have := sizeL_pos xs; omega),
      fun kvs rest h => absurd h (by have := sizeF_pos kvs; omega)⟩
  | succ fuel ih =>
    obtain ⟨IHP, IHQ, IHR⟩ := ih
    refine ⟨?_, ?_, ?_⟩
    · intro j rest hsz hdel
      cases j with
      | null =>
        show parseVal (fuel + 1) (encVal .null ++ rest) = some (.null, rest)
        simp [encVal, parseVal]
      | bool b =>
        cases b with
        | false =>
          show parseVal (fuel + 1) (encVal (.bool false) ++ rest) =
            some (.bool false, rest)
          simp [encVal, parseVal]
        | true =>
          show parseVal (fuel + 1) (encVal (.bool true) ++ rest) =
            some (.bool true, rest)
          simp [encVal, parseVal]
      | num n =>
        obtain ⟨c, t, hct, hcond, h1, h2, h3, h4, h5, h6, _⟩ := encNum_head n
        show parseVal (fuel + 1) (encVal (.num n) ++ rest) = some (.num n, rest)
        have henc : encVal (.num n) = encNum n := by simp [encVal]
        rw [henc, hct, List.cons_append, parseVal.eq_def]
        simp only []
        rw [if_neg h1, if_neg h2, if_neg h3, if_neg h4, if_neg h5, if_neg h6,
          if_pos hcond, ← List.cons_append, ← hct]
        exact parseNum_enc n rest hdel
      | str s =>
        show parseVal (fuel + 1) (encVal (.str s) ++ rest) = some (.str s, rest)
        have henc : encVal (.str s) = '"' :: encStrBody s := by simp [encVal, encStr]
        rw [henc, List.cons_append, parseVal.eq_def]
        simp only []
        rw [if_neg (by decide : ¬ ('"' : Char) = 'n'),
          if_neg (by decide : ¬ ('"' : Char) = 't'),
          if_neg (by decide : ¬ ('"' : Char) = 'f'), if_pos trivial,
          parseStrBody_enc s rest]
      | arr xs =>
        show parseVal (fuel + 1) (encVal (.arr xs) ++ rest) = some (.arr xs, rest)
        have henc : encVal (.arr xs) = '[' :: encItems xs := by simp [encVal]
        have hq := IHQ xs rest (by simp [sizeV] at hsz; omega)
        rw [henc, List.cons_append, parseVal.eq_def]
        simp only []
        rw [if_neg (by decide : ¬ ('[' : Char) = 'n'),
          if_neg (by decide : ¬ ('[' : Char) = 't'),
          if_neg (by decide : ¬ ('[' : Char) = 'f'),
          if_neg (by decide : ¬ ('[' : Char) = '"'), if_pos trivial, hq]
      | obj kvs =>
        show parseVal (fuel + 1) (encVal (.obj kvs) ++ rest) = some (.obj kvs, rest)
        have henc : encVal (.obj kvs) = '\x7b' :: encFields kvs := by simp [encVal]
        have hr := IHR kvs rest (by simp [sizeV] at hsz; omega)
        rw [henc, List.cons_append, parseVal.eq_def]
        simp only []
        rw [if_neg (by decide : ¬ ('\x7b' : Char) = 'n'),
          if_neg (by decide : ¬ ('\x7b' : Char) = 't'),
          if_neg (by decide : ¬ ('\x7b' : Char) = 'f'),
          if_neg (by decide : ¬ ('\x7b' : Char) = '"'),
          if_neg (by decide : ¬ ('\x7b' : Char) = '['), if_pos trivial, hr]
    · intro xs rest hsz
      cases xs with
      | nil =>
        show parseItems (fuel + 1) (encItems .nil ++ rest) = some (.nil, rest)
        simp [encItems, parseItems]
      | cons x t =>
        obtain ⟨c, ct, hct, hcne⟩ := encVal_head x
        cases t with
        | nil =>
          show parseItems (fuel + 1) (encItems (.cons x .nil) ++ rest) =
            some (.cons x .nil, rest)
          have henc : encItems (.cons x .nil) ++ rest = c :: (ct ++ (']' :: rest)) := by
            simp [encItems, hct]
          have hp := IHP x (']' :: rest) (by simp [sizeL] at hsz; omega) (by simp [delimOk])
          rw [hct, List.cons_append] at hp
          rw [henc, parseItems.eq_def]
          simp only []
          rw [if_neg hcne, hp]
          simp
        | cons y t2 =>
          show parseItems (fuel + 1) (encItems (.cons x (.cons y t2)) ++ rest) =
            some (.cons x (.cons y t2), rest)
          have henc : encItems (.cons x (.cons y t2)) ++ rest =
              c :: (ct ++ (',' :: (encItems (.cons y t2) ++ rest))) := by
            simp [encItems, hct]
          have hp := IHP x (',' :: (encItems (.cons y t2) ++ rest))
            (by simp [sizeL] at hsz; omega) (by simp [delimOk])
          rw [hct, List.cons_append] at hp
          have hq := IHQ (.cons y t2) rest (by simp [sizeL] at hsz ⊢; omega)
          rw [henc, parseItems.eq_def]
          simp only []
          rw [if_neg hcne, hp]
          simp [hq]
    · intro kvs rest hsz
      cases kvs with
      | nil =>
        show parseFields (fuel + 1) (encFields .nil ++ rest) = some (.nil, rest)
        simp [encFields, parseFields]
      | cons k v t =>
        cases t with
        | nil =>
          show parseFields (fuel + 1) (encFields (.cons k v .nil) ++ rest) =
            some (.cons k v .nil, rest)
          have henc : encFields (.cons k v .nil) ++ rest =
              '"' :: (encStrBody k ++ (':' :: (encVal v ++ ('\x7d' :: rest)))) := by
            simp [encFields, encStr]
          have hp := IHP v ('\x7d' :: rest) (by simp [sizeF] at hsz; omega) (by simp [delimOk])
          rw [henc, parseFields.eq_def]
          simp only []
          rw [if_neg (by decide : ¬ ('"' : Char) = '\x7d'), if_pos trivial,
            parseStrBody_enc k (':' :: (encVal v ++ ('\x7d' :: rest)))]
          simp only []
          rw [if_pos trivial, hp]
          simp
        | cons k2 v2 t2 =>
          show parseFields (fuel + 1) (encFields (.cons k v (.cons k2 v2 t2)) ++ rest) =
            some (.cons k v (.cons k2 v2 t2), rest)
          have henc : encFields (.cons k v (.cons k2 v2 t2)) ++ rest =
              '"' :: (encStrBody k ++ (':' ::
                (encVal v ++ (',' :: (encFields (.cons k2 v2 t2) ++ rest))))) := by
            simp [encFields, encStr]
          have hp := IHP v (',' :: (encFields (.cons k2 v2 t2) ++ rest))
            (by simp [sizeF] at hsz; omega) (by simp [delimOk])
          have hr := IHR (.cons k2 v2 t2) rest (by simp [sizeF] at hsz ⊢; omega)
          rw [henc, parseFields.eq_def]
          simp only []
          rw [if_neg (by decide : ¬ ('"' : Char) = '\x7d'), if_pos trivial,
            parseStrBody_enc k (':' :: (encVal v ++
              (',' :: (encFields (.cons k2 v2 t2) ++ rest))))]
          simp only []
          rw [if_pos trivial, hp]
          simp [hr]

theorem encVal_len_pos (j : Json) : 1 ≤ (encVal j).length := by
  obtain ⟨c, t, hct, _⟩ := encVal_head j
  rw [hct]; simp

mutual

theorem sizeV_le_len : ∀ j : Json, sizeV j ≤ (encVal j).length + 1
  | .null => by simp [sizeV]
  | .bool b => by simp [sizeV]
  | .num n => by simp [sizeV]
  | .str s => by simp [sizeV]
  | .arr xs => by
    have h := sizeL_le_len xs
    simp only [sizeV, encVal, List.length_cons]
    omega
  | .obj kvs => by
    have h := sizeF_le_len kvs
    simp only [sizeV, encVal, List.length_cons]
    omega

theorem sizeL_le_len : ∀ xs : JList, sizeL xs ≤ (encItems xs).length + 1
  | .nil => by simp [sizeL, encItems]
  | .cons x .nil => by
    have h := sizeV_le_len x
    simp only [sizeL, sizeL.eq_1, encItems, List.length_append, List.length_cons,
      List.length_nil]
    omega
  | .cons x (.cons y t) => by
    have h1 := sizeV_le_len x
    have h2 := sizeL_le_len (JList.cons y t)
    have h3 := encVal_len_pos x
    simp only [sizeL, encItems, List.length_append, List.length_cons] at h2 ⊢
    omega

theorem sizeF_le_len : ∀ kvs : JObj, sizeF kvs ≤ (encFields kvs).length + 1
  | .nil => by simp [sizeF, encFields]
  | .cons k v .nil => by
    have h := sizeV_le_len v
    simp only [sizeF, sizeF.eq_1, encFields, List.length_append, List.length_cons,
      List.length_nil]
    omega
  | .cons k v (.cons k2 v2 t) => by
    have h1 := sizeV_le_len v
    have h2 := sizeF_le_len (JObj.cons k2 v2 t)
    simp only [sizeF, encFields, List.length_append, List.length_cons] at h2 ⊢
    omega

end

/-- Round trip of the JSON model: reading back a serialized value yields
the value (the model counterpart of `json.loads(json.dumps(x)) == x`). -/
theorem jsonParse_encVal (j : Json) : jsonParse (encVal j) = some j := by
  have h := (parse_enc ((encVal j).length + 1)).1 j []
    (by have := sizeV_le_len j; omega) (by simp [delimOk])
  rw [List.append_nil] at h
  simp [jsonParse, h]

/-! ### The tolerant decoder of src/report/coalesce.py -/

/-- A pandas cell as seen by `safe_json_parse`: either a Python string or a
non-string value (e.g. a number or NaN). -/
inductive Cell where
  | cstr (s : List Char) : Cell
  | cnum (x : Int) : Cell
  | cnone : Cell
deriving DecidableEq

/-- Componentwise comparison of a pattern against the start of a list. -/
def isPrefComp (pat s : List Char) : Bool := pat == s.take pat.length

/-- Substring containment, the model of Python `pat in s`. -/
def hasSub (pat : List Char) : List Char → Bool
  | [] => pat.isEmpty
  | c :: t => isPrefComp pat (c :: t) || hasSub pat t

/-- The instructional marker filtered by `safe_json_parse`. -/
def phraseNT : List Char := "Now we transition".data

/-- The inner cleaning loop of `safe_json_parse`: string elements that
contain the instructional marker or strip to the empty string are skipped,
other string elements are parsed again (double-encoded JSON) and dropped
if they fail to parse, dict elements are kept as they are, and any other
element is dropped. -/
def cleanItems : JList → JList
  | .nil => .nil
  | .cons item t =>
    match item with
    | .str ch =>
      if hasSub phraseNT ch || ch.all (·.isWhitespace) then cleanItems t
      else
        match jsonParse ch with
        | some v => .cons v (cleanItems t)
        | none => cleanItems t
    | .obj kvs => .cons (.obj kvs) (cleanItems t)
    | _ => cleanItems t

/-- The tolerant decoder `safe_json_parse` of src/report/coalesce.py:
non-string input and unparseable strings give the empty list, a parsed
list is cleaned elementwise, and any other parsed value is returned as
it is. -/
def safeJsonParse : Cell → Json
  | .cstr s =>
    match jsonParse s with
    | none => .arr .nil
    | some (.arr items) => .arr (cleanItems items)
    | some j => j
  | _ => .arr .nil

theorem cleanItems_source : ∀ (items : JList) (x : Json),
    x ∈ (cleanItems items).toList →
    ∃ it ∈ items.toList,
      (∃ kvs, it = Json.obj kvs ∧ x = it) ∨
      (∃ t, it = Json.str t ∧ hasSub phraseNT t = false ∧
        t.all (·.isWhitespace) = false ∧ jsonParse t = some x)
  | .nil, x, hx => by simp [cleanItems, JList.toList] at hx
  | .cons it t, x, hx => by
    have lift : (∃ a ∈ t.toList, (∃ kvs, a = Json.obj kvs ∧ x = a) ∨
        (∃ u, a = Json.str u ∧ hasSub phraseNT u = false ∧
          u.all (·.isWhitespace) = false ∧ jsonParse u = some x)) →
        ∃ a ∈ (JList.cons it t).toList, (∃ kvs, a = Json.obj kvs ∧ x = a) ∨
        (∃ u, a = Json.str u ∧ hasSub phraseNT u = false ∧
          u.all (·.isWhitespace) = false ∧ jsonParse u = some x) := by
      rintro ⟨a, ha, hp⟩
      exact ⟨a, by simp [JList.toList, ha], hp⟩
    cases it with
    | str ch =>
      by_cases hskip : (hasSub phraseNT ch || ch.all (·.isWhitespace)) = true
      · rw [cleanItems, if_pos hskip] at hx
        exact lift (cleanItems_source t x hx)
      · rw [cleanItems, if_neg (by simp [hskip])] at hx
        simp only [Bool.or_eq_true, not_or, Bool.not_eq_true] at hskip
        cases hp : jsonParse ch with
        | none => rw [hp] at hx; exact lift (cleanItems_source t x hx)
        | some v =>
          rw [hp] at hx
          rcases List.mem_cons.mp hx with h | h
          · exact ⟨Json.str ch, by simp [JList.toList],
              Or.inr ⟨ch, rfl, hskip.1, hskip.2, by rw [hp, h]⟩⟩
          · exact lift (cleanItems_source t x h)
    | obj kvs =>
      rw [cleanItems] at hx
      rcases List.mem_cons.mp hx with h | h
      · exact ⟨Json.obj kvs, by simp [JList.toList], Or.inl ⟨kvs, rfl, h⟩⟩
      · exact lift (cleanItems_source t x h)
    | null =>
      rw [cleanItems.eq_def] at hx
      simp only [] at hx
      exact lift (cleanItems_source t x hx)
    | bool b =>
      rw [cleanItems.eq_def] at hx
      simp only [] at hx
      exact lift (cleanItems_source t x hx)
    | num n =>
      rw [cleanItems.eq_def] at hx
      simp only [] at hx
      exact lift (cleanItems_source t x hx)
    | arr ys =>
      rw [cleanItems.eq_def] at hx
      simp only [] at hx
      exact lift (cleanItems_source t x hx)

/-- C6: the tolerant decoder `safe_json_parse` is total (it is a Lean
function, so it never raises by construction); non-string input yields the
empty list, a string that is not valid JSON yields the empty list, and
when the parsed value is a list, every element of the decoded output
originates either from a dict element kept as it is or from a string
element that is not an instructional placeholder (does not contain
"Now we transition"), does not strip to the empty string, and parses as
JSON — so elements failing both encodings and placeholder strings are
dropped and never appear in the decoded output. -/
theorem c6_safe_json_parse_tolerant (c : Cell) :
    ((∀ s, c ≠ Cell.cstr s) → safeJsonParse c = .arr .nil) ∧
    (∀ s, c = Cell.cstr s → jsonParse s = none → safeJsonParse c = .arr .nil) ∧
    (∀ s items, c = Cell.cstr s → jsonParse s = some (.arr items) →
      safeJsonParse c = .arr (cleanItems items) ∧
      ∀ x ∈ (cleanItems items).toList, ∃ it ∈ items.toList,
        (∃ kvs, it = Json.obj kvs ∧ x = it) ∨
        (∃ t, it = Json.str t ∧ hasSub phraseNT t = false ∧
          t.all (·.isWhitespace) = false ∧ jsonParse t = some x)) := by
  refine ⟨?_, ?_, ?_⟩
  · intro h
    cases c with
    | cstr s => exact absurd rfl (h s)
    | cnum x => rfl
    | cnone => rfl
  · rintro s rfl hp
    simp [safeJsonParse, hp]
  · rintro s items rfl hp
    refine ⟨by simp [safeJsonParse, hp], ?_⟩
    intro x hx
    exact cleanItems_source items x hx

/-- Witness for C6 at concrete inputs: an invalid JSON string and a
non-string cell both decode to the empty list. -/
theorem c6_witness :
    safeJsonParse (Cell.cstr ("nope".data)) = Json.arr JList.nil ∧
    safeJsonParse Cell.cnone = Json.arr JList.nil :=
  ⟨(c6_safe_json_parse_tolerant (Cell.cstr ("nope".data))).2.1 _ rfl (by decide),
    (c6_safe_json_parse_tolerant Cell.cnone).1 (fun s h => Cell.noConfusion h)⟩

/-- A closing-statement object whose serialization contains the
instructional marker inside a field value. -/
def phraseObj : Json :=
  .obj (.cons ("argument".data) (.str ("Now we transition to closing".data)) .nil)

/-- C7 counterexample: the same singleton list of objects decodes to the
empty list when double-encoded (the element's serialization contains
"Now we transition", so the tolerant decoder drops it) but to the
singleton list when directly encoded — the encoding style does affect
the parsed output. -/
theorem c7_counterexample :
    safeJsonParse (.cstr (encVal (.arr (.cons (.str (encVal phraseObj)) .nil))))
        = .arr .nil ∧
      safeJsonParse (.cstr (encVal (.arr (.cons phraseObj .nil))))
        = .arr (.cons phraseObj .nil) ∧
      Json.arr JList.nil ≠ Json.arr (.cons phraseObj .nil) := by
  refine ⟨by decide, by decide, by decide⟩

/-- Every element of the sequence is a JSON object. -/
def allObjsB : JList → Bool
  | .nil => true
  | .cons (Json.obj _) t => allObjsB t
  | .cons _ _ => false

/-- Double encoding of a sequence: each element replaced by the JSON
string holding its serialization. -/
def strEncEach : JList → JList
  | .nil => .nil
  | .cons x t => .cons (.str (encVal x)) (strEncEach t)

theorem cleanItems_allObjs : ∀ xs : JList, allObjsB xs = true → cleanItems xs = xs
  | .nil, _ => rfl
  | .cons x t, h => by
    cases x with
    | obj kvs =>
      rw [allObjsB] at h
      rw [cleanItems, cleanItems_allObjs t h]
    | null => exact absurd h (by rw [allObjsB.eq_def]; simp)
    | bool b => exact absurd h (by rw [allObjsB.eq_def]; simp)
    | num n => exact absurd h (by rw [allObjsB.eq_def]; simp)
    | str s => exact absurd h (by rw [allObjsB.eq_def]; simp)
    | arr ys => exact absurd h (by rw [allObjsB.eq_def]; simp)

theorem cleanItems_strEncEach : ∀ xs : JList, allObjsB xs = true →
    (∀ x ∈ xs.toList, hasSub phraseNT (encVal x) = false) →
    cleanItems (strEncEach xs) = xs
  | .nil, _, _ => rfl
  | .cons x t, h, hph => by
    cases x with
    | obj kvs =>
      rw [allObjsB] at h
      have hx := hph (Json.obj kvs) (by simp [JList.toList])
      have ht := cleanItems_strEncEach t h
        (fun y hy => hph y (by simp [JList.toList, hy]))
      have hws : ((encVal (Json.obj kvs)).all (·.isWhitespace)) = false := by
        have : encVal (Json.obj kvs) = '\x7b' :: encFields kvs := by simp [encVal]
        rw [this]
        simp
      rw [strEncEach, cleanItems, if_neg (by simp [hx, hws]),
        jsonParse_encVal (Json.obj kvs), ht]
    | null => exact absurd h (by rw [allObjsB.eq_def]; simp)
    | bool b => exact absurd h (by rw [allObjsB.eq_def]; simp)
    | num n => exact absurd h (by rw [allObjsB.eq_def]; simp)
    | str s => exact absurd h (by rw [allObjsB.eq_def]; simp)
    | arr ys => exact absurd h (by rw [allObjsB.eq_def]; simp)

/-- C7 amended: for a list of JSON objects none of whose serializations
contains the instructional marker "Now we transition", the double-encoded
and the directly-encoded serializations decode to the identical list of
objects; the counterexample forces the marker side condition. -/
theorem c7_amended_roundtrip (xs : JList) (hobj : allObjsB xs = true)
    (hph : ∀ x ∈ xs.toList, hasSub phraseNT (encVal x) = false) :
    safeJsonParse (.cstr (encVal (.arr (strEncEach xs)))) =
      safeJsonParse (.cstr (encVal (.arr xs))) ∧
    safeJsonParse (.cstr (encVal (.arr xs))) = .arr xs := by
  have hdir : safeJsonParse (.cstr (encVal (.arr xs))) = .arr xs := by
    simp [safeJsonParse, jsonParse_encVal (Json.arr xs), cleanItems_allObjs xs hobj]
  have hdbl : safeJsonParse (.cstr (encVal (.arr (strEncEach xs)))) = .arr xs := by
    simp [safeJsonParse, jsonParse_encVal (Json.arr (strEncEach xs)),
      cleanItems_strEncEach xs hobj hph]
  exact ⟨hdbl.trans hdir.symm, hdir⟩

/-- Witness for the amended C7 at a concrete one-object list. -/
theorem c7_witness :
    allObjsB (JList.cons (Json.obj JObj.nil) JList.nil) = true ∧
    safeJsonParse (.cstr (encVal (.arr (strEncEach
        (JList.cons (Json.obj JObj.nil) JList.nil))))) =
      safeJsonParse (.cstr (encVal (.arr (JList.cons (Json.obj JObj.nil) JList.nil)))) :=
  ⟨by decide,
    (c7_amended_roundtrip (JList.cons (Json.obj JObj.nil) JList.nil)
      (by decide) (by decide)).1⟩

/-! ### The reconciliation engine coalesce_csvs of src/report/coalesce.py -/

/-- Python `str.strip()`. -/
def pyStrip (s : List Char) : List Char :=
  (((s.dropWhile (·.isWhitespace)).reverse).dropWhile (·.isWhitespace)).reverse

/-- Python `int(str)`: optional sign around a nonempty digit string after
stripping surrounding whitespace; anything else raises. -/
def pyIntChars (s : List Char) : Except String Int :=
  match pyStrip s with
  | '-' :: ds =>
    if ds ≠ [] ∧ ∀ c ∈ ds, c.isDigit = true then .ok (-(charsNat ds : Int))
    else .error "invalid literal for int()"
  | '+' :: ds =>
    if ds ≠ [] ∧ ∀ c ∈ ds, c.isDigit = true then .ok ((charsNat ds : Int))
    else .error "invalid literal for int()"
  | ds =>
    if ds ≠ [] ∧ ∀ c ∈ ds, c.isDigit = true then .ok ((charsNat ds : Int))
    else .error "invalid literal for int()"

/-- Python `int(x)` on a JSON value: integers pass through, booleans become
0 or 1, strings are read as decimal literals, everything else raises. -/
def pyInt : Json → Except String Int
  | .num n => .ok n
  | .bool b => .ok (if b then 1 else 0)
  | .str s => pyIntChars s
  | _ => .error "int() argument must be a number or string"

/-- Python iteration over a value (`for x in v`): lists yield elements,
dicts yield keys, strings yield one-character strings, anything else
raises TypeError. -/
def pyIter : Json → Except String (List Json)
  | .arr l => .ok l.toList
  | .obj kvs => .ok ((JObj.keys kvs).map Json.str)
  | .str s => .ok (s.map (fun ch => Json.str [ch]))
  | _ => .error "object is not iterable"

/-- The empty Python string as a cell. -/
def emptyCell : Cell := .cstr []

/-- A formatted closing statement as assembled by coalesce_csvs
(`agent` / `statement` / `score`, with `score` absent when the source dict
has no `proposed_score`). -/
structure CStmt where
  agent : Json
  statement : Json
  score : Option Json
deriving DecidableEq

/-- A transcript turn as classified by coalesce_csvs: a dict with an
`agent_name` key is a linguist turn, otherwise a dict with an `intervene`
key is a moderator turn. -/
inductive TTurn where
  | linguistT (agent : Json) (argument : Option Json) (proposed : Option Json) : TTurn
  | moderatorT (violators : Json) (intervened : Option Json) (feedback : Json) : TTurn
deriving DecidableEq

/-- An analysis entry of the final report: an `individual` entry from one
review row or the single `debate` entry of the verse. -/
inductive Entry where
  | individual (model : Cell) (score : Int) (reasoning : Cell) : Entry
  | debate (score : Int) (transcript : List TTurn) (closing : List CStmt) : Entry
deriving DecidableEq

def Entry.isIndividualB : Entry → Bool
  | .individual _ _ _ => true
  | .debate _ _ _ => false

def Entry.isDebateB : Entry → Bool
  | .individual _ _ _ => false
  | .debate _ _ _ => true

/-- A row of the individual-results table after coalesce_csvs capitalizes
the column names.  A `none` field models an absent column, matching the
`row.get(name, default)` accesses in the source. -/
structure IndRow where
  verse : Int
  greek_text : Option Cell
  face : Option Cell
  notes : Option Cell
  translation : Option Cell
  model : Option Cell
  score : Option Int
  model_analysis : Option Cell
deriving DecidableEq

/-- A row of the debate-results table after coalesce_csvs lowercases the
column names. -/
structure DebRow where
  verse : Int
  greek_text : Option Cell
  face : Option Cell
  translation : Option Cell
  closing_statements : Option Cell
  debate : Option Cell
deriving DecidableEq

/-- The closing statement built from one dict element `s`:
`agent = s.get('agent_name', 'Unknown')`, `statement = s.get('argument', "")`,
`score = s.get('proposed_score')`. -/
def mkCStmt (kvs : JObj) : CStmt :=
  ⟨kvs.getD ("agent_name".data) (.str ("Unknown".data)),
    kvs.getD ("argument".data) (.str []),
    JObj.lookup kvs ("proposed_score".data)⟩

/-- Python `min(l)` for a nonempty list, and the coalesce_csvs policy
value 0 for an empty one (`min(closing_scores) if closing_scores else 0`). -/
def minOrZero : List Int → Int
  | [] => 0
  | x :: t => t.foldl min x

/-- The closing-statement loop of coalesce_csvs: for every dict element,
append `int(s['proposed_score'])` to the score list when the key is
present, and always append the formatted closing statement; non-dict
elements contribute nothing. -/
def processClosing : List Json → Except String (List Int × List CStmt)
  | [] => .ok ([], [])
  | s :: rest =>
    match s with
    | .obj kvs =>
      match JObj.lookup kvs ("proposed_score".data) with
      | some v =>
        match pyInt v with
        | .error m => .error m
        | .ok n =>
          match processClosing rest with
          | .error m => .error m
          | .ok p => .ok (n :: p.1, mkCStmt kvs :: p.2)
      | none =>
        match processClosing rest with
        | .error m => .error m
        | .ok p => .ok (p.1, mkCStmt kvs :: p.2)
    | _ => processClosing rest

/-- The transcript loop of coalesce_csvs: skip non-dicts, classify dicts
by the presence of `agent_name` (linguist) or `intervene` (moderator), and
drop everything else. -/
def buildTranscript : List Json → List TTurn
  | [] => []
  | turn :: rest =>
    match turn with
    | .obj kvs =>
      if kvs.hasKey ("agent_name".data) then
        .linguistT ((JObj.lookup kvs ("agent_name".data)).getD Json.null)
            (JObj.lookup kvs ("argument".data))
            (JObj.lookup kvs ("proposed_score".data)) :: buildTranscript rest
      else if kvs.hasKey ("intervene".data) then
        .moderatorT (kvs.getD ("violators".data) (.arr (.cons (.str []) .nil)))
            (JObj.lookup kvs ("intervene".data))
            (kvs.getD ("feedback".data) (.str [])) :: buildTranscript rest
      else buildTranscript rest
    | _ => buildTranscript rest

/-- Processing of the first matching debate row of a verse: parse the
closing statements with the tolerant decoder, derive the consensus score
as the minimum of the proposed scores (0 when none), parse and classify
the debate transcript, and emit the debate analysis entry. -/
def processDebRow (r : DebRow) : Except String Entry :=
  match pyIter (safeJsonParse ((r.closing_statements).getD (Cell.cstr ("[]".data)))) with
  | .error m => .error m
  | .ok items =>
    match processClosing items with
    | .error m => .error m
    | .ok p =>
      match pyIter (safeJsonParse ((r.debate).getD (Cell.cstr ("[]".data)))) with
      | .error m => .error m
      | .ok db => .ok (.debate (minOrZero p.1) (buildTranscript db) p.2)

/-- One review entry of the report:
`model = row.get('Model', 'Unknown')`, `score = int(row.get('Score', 0))`,
`reasoning = row.get('Model_analysis', "")`. -/
def mkIndEntry (r : IndRow) : Entry :=
  .individual ((r.model).getD (Cell.cstr ("Unknown".data))) ((r.score).getD 0)
    ((r.model_analysis).getD emptyCell)

/-- A verse object of the final report. -/
structure VerseObj where
  verse : Int
  greek : Cell
  translation : Cell
  annot : Cell
  notes : Cell
  analysis : List Entry
deriving DecidableEq

/-- The per-verse body of the merge loop of coalesce_csvs: filter both
tables by the verse number, take the verse metadata from the first
individual row, else from the first debate row, else empty; emit one
individual entry per individual row followed by the debate entry of the
first debate row when one exists. -/
def buildVerseObj (v : Int) (ind : List IndRow) (deb : List DebRow) :
    Except String VerseObj :=
  let indRows := ind.filter (fun r => r.verse == v)
  let debRows := deb.filter (fun r => r.verse == v)
  let meta : Cell × Cell × Cell × Cell :=
    match indRows with
    | r :: _ => ((r.greek_text).getD emptyCell, (r.face).getD emptyCell,
        (r.notes).getD emptyCell, (r.translation).getD emptyCell)
    | [] =>
      match debRows with
      | r :: _ => ((r.greek_text).getD emptyCell, (r.face).getD emptyCell,
          emptyCell, (r.translation).getD emptyCell)
      | [] => (emptyCell, emptyCell, emptyCell, emptyCell)
  let indEntries := indRows.map mkIndEntry
  match debRows with
  | [] => .ok ⟨v, meta.1, meta.2.2.2, meta.2.1, meta.2.2.1, indEntries⟩
  | r :: _ =>
    match processDebRow r with
    | .error m => .error m
    | .ok e => .ok ⟨v, meta.1, meta.2.2.2, meta.2.1, meta.2.2.1, indEntries ++ [e]⟩

/-- Insert into a sorted list of verse numbers. -/
def insSorted (x : Int) : List Int → List Int
  | [] => [x]
  | y :: t => if x ≤ y then x :: y :: t else y :: insSorted x t

/-- Sort a list of verse numbers (Python `sorted`). -/
def sortInts (l : List Int) : List Int := l.foldr insSorted []

/-- The verse numbers present in either table,
`sorted(individual_verses.union(debate_verses))`. -/
def verseKeys (ind : List IndRow) (deb : List DebRow) : List Int :=
  sortInts ((ind.map (fun r => r.verse) ++ deb.map (fun r => r.verse)).dedup)

def buildAll (ind : List IndRow) (deb : List DebRow) :
    List Int → Except String (List VerseObj)
  | [] => .ok []
  | v :: vs =>
    match buildVerseObj v ind deb with
    | .error m => .error m
    | .ok o =>
      match buildAll ind deb vs with
      | .error m => .error m
      | .ok rest => .ok (o :: rest)

/-- The analysis list produced by coalesce_csvs (the report's top-level
book/chapter/category constants are not modelled; the claims are about
the merge). -/
def coalesce (ind : List IndRow) (deb : List DebRow) :
    Except String (List VerseObj) :=
  buildAll ind deb (verseKeys ind deb)

/-- The proposed scores carried by the parsed closing-statement elements:
one score per dict element whose `proposed_score` converts to an integer. -/
def specScores (items : List Json) : List Int :=
  items.filterMap fun j =>
    match j with
    | .obj kvs =>
      match JObj.lookup kvs ("proposed_score".data) with
      | some v => (pyInt v).toOption
      | none => none
    | _ => none

theorem processClosing_fst : ∀ (items : List Json) (p : List Int × List CStmt),
    processClosing items = .ok p → p.1 = specScores items := by
  intro items
  induction items with
  | nil =>
    intro p h
    simp only [processClosing] at h
    cases h
    rfl
  | cons s rest ih =>
    intro p h
    cases s with
    | obj kvs =>
      cases hl : JObj.lookup kvs ("proposed_score".data) with
      | some v =>
        simp only [processClosing, hl] at h
        cases hn : pyInt v with
        | error msg => rw [hn] at h; cases h
        | ok n =>
          rw [hn] at h
          cases hr : processClosing rest with
          | error msg => rw [hr] at h; cases h
          | ok q =>
            rw [hr] at h
            cases h
            simp [specScores, List.filterMap_cons, hl, hn, Except.toOption, ih q hr]
      | none =>
        simp only [processClosing, hl] at h
        cases hr : processClosing rest with
        | error msg => rw [hr] at h; cases h
        | ok q =>
          rw [hr] at h
          cases h
          simp [specScores, List.filterMap_cons, hl, ih q hr]
    | null =>
      simp only [processClosing] at h
      simpa [specScores, List.filterMap_cons] using ih p h
    | bool b =>
      simp only [processClosing] at h
      simpa [specScores, List.filterMap_cons] using ih p h
    | num n =>
      simp only [processClosing] at h
      simpa [specScores, List.filterMap_cons] using ih p h
    | str t =>
      simp only [processClosing] at h
      simpa [specScores, List.filterMap_cons] using ih p h
    | arr ys =>
      simp only [processClosing] at h
      simpa [specScores, List.filterMap_cons] using ih p h

theorem processDebRow_shape (r : DebRow) (e : Entry) (h : processDebRow r = .ok e) :
    ∃ items p db,
      pyIter (safeJsonParse ((r.closing_statements).getD (Cell.cstr ("[]".data))))
        = .ok items ∧
      processClosing items = .ok p ∧
      pyIter (safeJsonParse ((r.debate).getD (Cell.cstr ("[]".data)))) = .ok db ∧
      e = .debate (minOrZero p.1) (buildTranscript db) p.2 := by
  cases h1 : pyIter (safeJsonParse ((r.closing_statements).getD (Cell.cstr ("[]".data)))) with
  | error msg => simp [processDebRow, h1] at h
  | ok items =>
    simp only [processDebRow, h1] at h
    cases h2 : processClosing items with
    | error msg => simp only [h2] at h; cases h
    | ok p =>
      simp only [h2] at h
      cases h3 : pyIter (safeJsonParse ((r.debate).getD (Cell.cstr ("[]".data)))) with
      | error msg => simp only [h3] at h; cases h
      | ok db =>
        simp only [h3] at h
        cases h
        exact ⟨items, p, db, rfl, h2, rfl, rfl⟩

theorem indiv_not_debate (e : Entry) (h : Entry.isIndividualB e = true) :
    Entry.isDebateB e = false := by
  cases e with
  | individual m s re => rfl
  | debate s t c => exact absurd h (by simp [Entry.isIndividualB])

theorem mkIndEntry_individual (l : List IndRow) :
    ∀ e ∈ l.map mkIndEntry, Entry.isIndividualB e = true := by
  intro e he
  obtain ⟨r0, _, rfl⟩ := List.mem_map.mp he
  rfl

instance {e a : Type} [DecidableEq e] [DecidableEq a] : DecidableEq (Except e a) :=
  fun x y =>
  match x, y with
  | .error u, .error w =>
    if h : u = w then .isTrue (by rw [h]) else .isFalse (fun hh => h (Except.error.inj hh))
  | .ok u, .ok w =>
    if h : u = w then .isTrue (by rw [h]) else .isFalse (fun hh => h (Except.ok.inj hh))
  | .error _, .ok _ => .isFalse (fun hh => Except.noConfusion hh)
  | .ok _, .error _ => .isFalse (fun hh => Except.noConfusion hh)

/-- C2: for every debate row accepted by the engine, the consensus score of
the emitted debate entry is the minimum of the `proposed_score` values over
the parsed closing-statement elements that carry one, and 0 when none
does (`minOrZero` is 0 on the empty score list). -/
theorem c2_min_consensus (r : DebRow) (e : Entry) (h : processDebRow r = .ok e) :
    ∃ items ts cs,
      pyIter (safeJsonParse ((r.closing_statements).getD (Cell.cstr ("[]".data))))
        = .ok items ∧
      e = .debate (minOrZero (specScores items)) ts cs := by
  obtain ⟨items, p, db, h1, h2, h3, he⟩ := processDebRow_shape r e h
  exact ⟨items, buildTranscript db, p.2, h1,
    by rw [he, processClosing_fst items p h2]⟩

/-- The claim's worked example: three closing statements proposing 7, 5
and 6. -/
def c2row : DebRow :=
  ⟨3, none, none, none,
    some (Cell.cstr (encVal (.arr (.cons
      (.obj (.cons ("proposed_score".data) (.num 7) .nil)) (.cons
      (.obj (.cons ("proposed_score".data) (.num 5) .nil)) (.cons
      (.obj (.cons ("proposed_score".data) (.num 6) .nil)) .nil)))))),
    none⟩

/-- The debate entry the engine emits for `c2row`. -/
def c2entry : Entry :=
  .debate 5 []
    [⟨.str ("Unknown".data), .str [], some (.num 7)⟩,
     ⟨.str ("Unknown".data), .str [], some (.num 5)⟩,
     ⟨.str ("Unknown".data), .str [], some (.num 6)⟩]

/-- Witness for C2: proposed scores [7, 5, 6] yield consensus score 5. -/
theorem c2_witness :
    minOrZero [7, 5, 6] = 5 ∧
    ∃ items ts cs,
      pyIter (safeJsonParse ((c2row.closing_statements).getD (Cell.cstr ("[]".data))))
        = .ok items ∧
      c2entry = .debate (minOrZero (specScores items)) ts cs :=
  ⟨by decide, c2_min_consensus c2row c2entry (by decide)⟩

/-- Two individual rows sharing verse 3 with different greek_text values. -/
def c1rowA : IndRow :=
  ⟨3, some (Cell.cstr ("A".data)), some (Cell.cstr ("F".data)), some emptyCell,
    some emptyCell, some (Cell.cstr ("M1".data)), some 7, some emptyCell⟩

def c1rowB : IndRow :=
  ⟨3, some (Cell.cstr ("B".data)), some (Cell.cstr ("F".data)), some emptyCell,
    some emptyCell, some (Cell.cstr ("M2".data)), some 5, some emptyCell⟩

/-- C1 counterexample: two individual rows with the same verse number but
different greek_text ("A" vs "B") are merged into one single VerseReport
whose analysis holds both entries — the engine groups by verse number
alone, not by the composite key (verse, greek_text, face annotation), so
the claim that such rows are placed in different groups is false. -/
theorem c1_counterexample :
    coalesce [c1rowA, c1rowB] [] =
      .ok [⟨3, Cell.cstr ("A".data), emptyCell, Cell.cstr ("F".data), emptyCell,
        [.individual (Cell.cstr ("M1".data)) 7 emptyCell,
         .individual (Cell.cstr ("M2".data)) 5 emptyCell]⟩] := by
  decide

/-- C1 amended: the engine groups individual rows and matches debate rows
by the verse number alone — the individual entries of a verse object are
exactly those of the rows with that verse number whatever their greek_text
or face annotation, and a debate entry is joined exactly when a debate row
with the same verse number exists (greek_text and face annotation are
never compared, so no whitespace trimming takes place). -/
theorem c1_amended_verse_only_key (v : Int) (ind : List IndRow)
    (deb : List DebRow) (o : VerseObj) (h : buildVerseObj v ind deb = .ok o) :
    o.analysis.filter Entry.isIndividualB
        = (ind.filter (fun r => r.verse == v)).map mkIndEntry ∧
      ((∃ e ∈ o.analysis, Entry.isDebateB e = true) ↔
        deb.filter (fun r => r.verse == v) ≠ []) := by
  cases hdeb : deb.filter (fun r => r.verse == v) with
  | nil =>
    simp only [buildVerseObj, hdeb] at h
    cases h
    constructor
    · exact List.filter_eq_self.mpr
        (mkIndEntry_individual (ind.filter (fun r => r.verse == v)))
    · simp only [ne_eq, not_true_eq_false, iff_false, not_exists]
      intro e
      rintro ⟨he, hd⟩
      have h1 := mkIndEntry_individual (ind.filter (fun r => r.verse == v)) e he
      rw [indiv_not_debate e h1] at hd
      cases hd
  | cons d ds =>
    simp only [buildVerseObj, hdeb] at h
    cases hpd : processDebRow d with
    | error m => rw [hpd] at h; cases h
    | ok e0 =>
      rw [hpd] at h
      cases h
      obtain ⟨items, p, db, _, _, _, he0⟩ := processDebRow_shape d e0 hpd
      subst he0
      constructor
      · rw [List.filter_append,
          List.filter_eq_self.mpr
            (mkIndEntry_individual (ind.filter (fun r => r.verse == v)))]
        simp [Entry.isIndividualB]
      · simp only [ne_eq, reduceCtorEq, not_false_eq_true, iff_true]
        exact ⟨Entry.debate (minOrZero p.1) (buildTranscript db) p.2,
          List.mem_append.mpr (Or.inr (by simp)), rfl⟩

/-- C9: join misses degrade to partial verse reports.  For a verse with
individual rows only (no debate row matches), the engine succeeds and
emits exactly the individual entries and no debate entry; for a verse
with debate rows only, any emitted verse object has the empty string as
notes and takes its translation from the first debate row's value when
that column is present, else the empty string. -/
theorem c9_join_miss_degrades (v : Int) (ind : List IndRow) (deb : List DebRow) :
    (deb.filter (fun r => r.verse == v) = [] →
      ∃ o, buildVerseObj v ind deb = .ok o ∧
        o.analysis = (ind.filter (fun r => r.verse == v)).map mkIndEntry ∧
        ∀ e ∈ o.analysis, Entry.isIndividualB e = true) ∧
    (ind.filter (fun r => r.verse == v) = [] →
      ∀ d ds, deb.filter (fun r => r.verse == v) = d :: ds →
        ∀ o, buildVerseObj v ind deb = .ok o →
          o.notes = emptyCell ∧ o.translation = (d.translation).getD emptyCell) := by
  constructor
  · intro hdeb
    cases hind : ind.filter (fun r => r.verse == v) with
    | nil =>
      refine ⟨⟨v, emptyCell, emptyCell, emptyCell, emptyCell, []⟩, ?_, ?_, ?_⟩
      · simp [buildVerseObj, hdeb, hind]
      · simp
      · intro e he
        simp at he
    | cons r rs =>
      refine ⟨⟨v, (r.greek_text).getD emptyCell, (r.translation).getD emptyCell,
        (r.face).getD emptyCell, (r.notes).getD emptyCell,
        (r :: rs).map mkIndEntry⟩, ?_, rfl, ?_⟩
      · simp [buildVerseObj, hdeb, hind]
      · exact mkIndEntry_individual (r :: rs)
  · intro hind d ds hdeb o hok
    simp only [buildVerseObj, hind, hdeb] at hok
    cases hpd : processDebRow d with
    | error m => rw [hpd] at hok; cases hok
    | ok e0 =>
      rw [hpd] at hok
      cases hok
      exact ⟨rfl, rfl⟩

/-- A debate-only row for verse 4 with a translation value present. -/
def c9deb : DebRow :=
  ⟨4, some (Cell.cstr ("G".data)), some (Cell.cstr ("F".data)),
    some (Cell.cstr ("T".data)), none, none⟩

/-- The verse object the engine emits for the debate-only verse 4. -/
def c9obj : VerseObj :=
  ⟨4, Cell.cstr ("G".data), Cell.cstr ("T".data), Cell.cstr ("F".data),
    emptyCell, [.debate 0 [] []]⟩

/-- Witness for C9: an individual-only verse report and a debate-only
verse report, both produced without error. -/
theorem c9_witness :
    (∃ o, buildVerseObj 3 [c1rowA] [] = .ok o ∧
      o.analysis = ([c1rowA].filter (fun r => r.verse == 3)).map mkIndEntry ∧
      ∀ e ∈ o.analysis, Entry.isIndividualB e = true) ∧
    (c9obj.notes = emptyCell ∧
      c9obj.translation = ((c9deb.translation).getD emptyCell)) :=
  ⟨(c9_join_miss_degrades 3 [c1rowA] []).1 (by decide),
    (c9_join_miss_degrades 4 [] [c9deb]).2 (by decide) c9deb [] (by decide) c9obj
      (by decide)⟩

/-- A debate row for verse 3 whose greek_text has stray surrounding
whitespace and differs from both individual rows' greek_text. -/
def c1deb : DebRow :=
  ⟨3, some (Cell.cstr (" A ".data)), some (Cell.cstr ("F".data)), none, none, none⟩

/-- The verse object built for verse 3 from both individual rows and the
debate row. -/
def c1obj : VerseObj :=
  ⟨3, Cell.cstr ("A".data), emptyCell, Cell.cstr ("F".data), emptyCell,
    [.individual (Cell.cstr ("M1".data)) 7 emptyCell,
     .individual (Cell.cstr ("M2".data)) 5 emptyCell,
     .debate 0 [] []]⟩

/-- Witness for the amended C1 at a concrete verse: the debate row joins
by verse number even though its greek_text differs from both rows'. -/
theorem c1_witness :
    c1obj.analysis.filter Entry.isIndividualB
        = ([c1rowA, c1rowB].filter (fun r => r.verse == 3)).map mkIndEntry ∧
      ((∃ e ∈ c1obj.analysis, Entry.isDebateB e = true) ↔
        [c1deb].filter (fun r => r.verse == 3) ≠ []) :=
  c1_amended_verse_only_key 3 [c1rowA, c1rowB] [c1deb] c1obj (by decide)

/-! ### The grouping step of src/teams/debate.py -/

/-- A review-result row as consumed by
`Debate.process_interleaved_dataframe`. -/
structure RevRow where
  chapter : Int
  verse : Int
  agent_name : Cell
  score : Cell
  model_analysis : Cell
  face : Cell
  greek_text : Cell
  translation : Cell
deriving DecidableEq

/-- Insertion into a list sorted by the (chapter, verse) key. -/
def insKey (x : Int × Int) : List (Int × Int) → List (Int × Int)
  | [] => [x]
  | y :: t =>
    if x.1 < y.1 ∨ (x.1 = y.1 ∧ x.2 ≤ y.2) then x :: y :: t else y :: insKey x t

/-- The distinct (Chapter, Verse) keys of the dataframe in the sorted
order `pandas.groupby` produces. -/
def groupKeys (df : List RevRow) : List (Int × Int) :=
  ((df.map (fun r => (r.chapter, r.verse))).dedup).foldr insKey []

/-- The rows of one (Chapter, Verse) group. -/
def grp (df : List RevRow) (k : Int × Int) : List RevRow :=
  df.filter (fun r => (r.chapter, r.verse) == k)

/-- `Debate.process_interleaved_dataframe`: group the rows by
(Chapter, Verse), skip (with a logged warning) every group whose size is
not exactly 2, run the single-verse debate on each remaining group (one
result row per group, the debate itself abstracted as `debateFn`), and
concatenate; `pd.concat` raises ValueError on an empty result list. -/
def processInterleaved {α : Type} (debateFn : List RevRow → α) (df : List RevRow) :
    Except String (List α) :=
  let valid := (groupKeys df).filter (fun k => (grp df k).length == 2)
  let results := valid.map (fun k => debateFn (grp df k))
  if results.isEmpty then .error "No objects to concatenate" else .ok results

/-- C3: the grouping step emits exactly one debate result for each
(Chapter, Verse) group with exactly 2 review rows, in group order, and a
group of any other size contributes nothing (it is skipped); when no
group has exactly 2 rows the final `pd.concat` raises instead of
returning an empty table. -/
theorem c3_one_debate_per_pair {α : Type} (debateFn : List RevRow → α)
    (df : List RevRow) :
    processInterleaved debateFn df =
      (if ((groupKeys df).filter (fun k => (grp df k).length == 2)) = [] then
        .error "No objects to concatenate"
      else .ok (((groupKeys df).filter (fun k => (grp df k).length == 2)).map
        (fun k => debateFn (grp df k)))) ∧
    ∀ l, processInterleaved debateFn df = .ok l →
      l.length = ((groupKeys df).filter (fun k => (grp df k).length == 2)).length := by
  constructor
  · cases hv : (groupKeys df).filter (fun k => (grp df k).length == 2) with
    | nil => simp [processInterleaved, hv]
    | cons a l => simp [processInterleaved, hv]
  · intro l hl
    cases hv : (groupKeys df).filter (fun k => (grp df k).length == 2) with
    | nil => simp [processInterleaved, hv] at hl
    | cons a t =>
      simp only [processInterleaved, hv] at hl
      simp at hl
      rw [← hl]
      simp

def c3row1 : RevRow :=
  ⟨1, 1, emptyCell, emptyCell, emptyCell, emptyCell, emptyCell, emptyCell⟩

/-- Witness for C3: a dataframe with one group of exactly 2 rows yields
exactly one debate result. -/
theorem c3_witness :
    ([2] : List Nat).length = ((groupKeys [c3row1, c3row1]).filter
      (fun k => (grp [c3row1, c3row1] k).length == 2)).length :=
  (c3_one_debate_per_pair (fun g => g.length) [c3row1, c3row1]).2 [2] (by decide)

/-! ### The independent review loop of src/teams/analysis.py -/

/-- The critic's schema from src/agents/critic.py: two required fields
`accepted` (bool) and `reasoning` (string).  Pydantic's default model
config ignores unexpected extra fields, so validation only consults the
two declared keys. -/
structure CriticReview where
  accepted : Bool
  reasoning : List Char
deriving DecidableEq

/-- Pydantic validation `CriticReview(**data)`: the parsed JSON must be an
object, each required field must be present with the declared type, and
extra fields are ignored (the pydantic default). -/
def validateCriticReview (j : Json) : Option CriticReview :=
  match j with
  | .obj kvs =>
    match JObj.lookup kvs ("accepted".data) with
    | some (.bool b) =>
      match JObj.lookup kvs ("reasoning".data) with
      | some (.str r) => some ⟨b, r⟩
      | _ => none
    | _ => none
  | _ => none

/-- `parse_critic_output` of src/teams/analysis.py:
`json.loads(json_str.strip())` followed by `CriticReview(**data)`, with
any exception turned into None. -/
def parseCriticOutput (s : List Char) : Option CriticReview :=
  match jsonParse (pyStrip s) with
  | none => none
  | some j => validateCriticReview j

/-- Result of `perform_analysis_and_review`: the returned critique and the
final value of the loop counter `review_round`. -/
structure ReviewOutcome where
  critique : List Char
  rounds : Nat
deriving DecidableEq

/-- The review loop of `perform_analysis_and_review`: while fewer than the
maximal number of rounds, ask the critic (the reply of its k-th review is
`critic k`); on a parse failure or an accepted review return the current
critique; on a rejection ask the linguist to revise (the reply of its k-th
turn is `linguist k`) and continue with the revision. -/
def reviewLoop (critic linguist : Nat → List Char) :
    Nat → Nat → List Char → ReviewOutcome
  | 0, round, critique => ⟨critique, round⟩
  | n + 1, round, critique =>
    match parseCriticOutput (critic round) with
    | none => ⟨critique, round⟩
    | some cr =>
      if cr.accepted then ⟨critique, round⟩
      else reviewLoop critic linguist n (round + 1) (linguist (round + 1))

/-- `max_review_rounds = 3` in src/teams/analysis.py. -/
def maxReviewRounds : Nat := 3

/-- `perform_analysis_and_review`: the linguist's independent analysis is
its turn 0; then the bounded review loop runs. -/
def performAnalysisAndReview (linguist critic : Nat → List Char) : ReviewOutcome :=
  reviewLoop critic linguist maxReviewRounds 0 (linguist 0)

/-- C4: with a critic that rejects on every round, the protocol stops
after exactly 3 review rounds — 3 critic reviews and 3 linguist
revisions — and returns the linguist's last produced critique (its turn
3, the third revision); the loop cannot run indefinitely. -/
theorem c4_always_reject_three_rounds (linguist critic : Nat → List Char)
    (h : ∀ k, k < 3 → ∃ rsn, parseCriticOutput (critic k) = some ⟨false, rsn⟩) :
    performAnalysisAndReview linguist critic = ⟨linguist 3, 3⟩ := by
  obtain ⟨r0, h0⟩ := h 0 (by omega)
  obtain ⟨r1, h1⟩ := h 1 (by omega)
  obtain ⟨r2, h2⟩ := h 2 (by omega)
  simp [performAnalysisAndReview, maxReviewRounds, reviewLoop, h0, h1, h2]

/-- A critic reply rejecting the analysis. -/
def c4critic : Nat → List Char := fun _ =>
  encVal (.obj (.cons ("accepted".data) (.bool false)
    (.cons ("reasoning".data) (.str ("no".data)) .nil)))

/-- A linguist whose k-th turn is the decimal rendering of k. -/
def c4linguist : Nat → List Char := fun k => natChars k

/-- Witness for C4: the always-rejecting critic yields the linguist's
third revision after exactly 3 rounds. -/
theorem c4_witness :
    performAnalysisAndReview c4linguist c4critic = ⟨c4linguist 3, 3⟩ :=
  c4_always_reject_three_rounds c4linguist c4critic
    (fun _k _ => ⟨"no".data, rfl⟩)

/-- A critic reply with the two required fields and one extra field. -/
def c5extra : List Char :=
  encVal (.obj (.cons ("accepted".data) (.bool true)
    (.cons ("reasoning".data) (.str ("ok".data))
    (.cons ("extra".data) (.num 1) .nil))))

/-- C5 counterexample: a critic reply carrying an extra field beyond
accepted and reasoning is NOT a parse failure — `CriticReview(**data)`
under the pydantic default ignores the extra field and the reply parses
successfully, contradicting the claim that any extra field is a parse
failure. -/
theorem c5_counterexample :
    parseCriticOutput c5extra = some ⟨true, ("ok".data)⟩ := by
  decide

/-- C5 amended: a critic reply is a valid parse exactly when it is a JSON
object carrying the two required fields with their declared types — a
missing required field is a parse failure, while extra fields are
ignored (they do not enter validation) — and on a parse failure the
review loop aborts at once and returns the current critique unmodified
with no revision round run. -/
theorem c5_amended_required_fields (s : List Char) :
    (∀ kvs, jsonParse (pyStrip s) = some (.obj kvs) →
      (JObj.lookup kvs ("accepted".data) = none ∨
        JObj.lookup kvs ("reasoning".data) = none) →
      parseCriticOutput s = none) ∧
    (∀ kvs b r, jsonParse (pyStrip s) = some (.obj kvs) →
      JObj.lookup kvs ("accepted".data) = some (.bool b) →
      JObj.lookup kvs ("reasoning".data) = some (.str r) →
      parseCriticOutput s = some ⟨b, r⟩) ∧
    (∀ linguist critic : Nat → List Char, parseCriticOutput (critic 0) = none →
      performAnalysisAndReview linguist critic = ⟨linguist 0, 0⟩) := by
  refine ⟨?_, ?_, ?_⟩
  · intro kvs hp hmiss
    rw [parseCriticOutput, hp]
    rcases hmiss with hm | hm
    · simp [validateCriticReview, hm]
    · cases ha : JObj.lookup kvs ("accepted".data) with
      | none => simp [validateCriticReview, ha]
      | some j => cases j <;> simp [validateCriticReview, ha, hm]
  · intro kvs b r hp ha hr
    rw [parseCriticOutput, hp]
    simp [validateCriticReview, ha, hr]
  · intro linguist critic hfail
    simp [performAnalysisAndReview, maxReviewRounds, reviewLoop, hfail]

/-- A critic reply missing the required `accepted` field. -/
def c5missing : List Char :=
  encVal (.obj (.cons ("reasoning".data) (.str ("x".data)) .nil))

/-- A critic oracle producing garbage that fails to parse. -/
def c5badcritic : Nat → List Char := fun _ => "zz".data

/-- Witness for the amended C5: a reply missing a required field fails to
parse, and with a critic whose first reply fails to parse the protocol
returns the initial critique unmodified after zero revision rounds. -/
theorem c5_witness :
    parseCriticOutput c5missing = none ∧
    performAnalysisAndReview c4linguist c5badcritic = ⟨c4linguist 0, 0⟩ :=
  ⟨(c5_amended_required_fields c5missing).1
      (.cons ("reasoning".data) (.str ("x".data)) .nil) (by decide)
      (Or.inl (by decide)),
    (c5_amended_required_fields []).2.2 c4linguist c5badcritic (by decide)⟩

/-! ### The conversation engine (spec §4.1) and its termination conditions -/

/-- A chat message: its sender and its content. -/
structure Msg where
  source : String
  content : List Char
deriving DecidableEq

/-- Modelled from the spec: the Conversation Engine (§4.1) is autogen's
RoundRobinGroupChat, which is not part of src/; per the spec it schedules
participants round-robin, each scheduled turn appends exactly one message
produced from the full history, and after each append the termination
predicate is evaluated (here over the messages of the current run, the
unit the resettable message-count condition of the source counts).
`prior` is the accumulated history of earlier runs of the same engine
(re-invoking run continues the same history), `nw` the messages of the
current run starting with its task message, and `fuel` a bound making the
recursion total — the claims hold for every fuel. -/
def runConvD (parts : List (List Msg → Msg)) (cond : List Msg → Bool)
    (prior : List Msg) : Nat → List Msg → Nat → List Msg
  | 0, nw, _ => nw
  | fuel + 1, nw, idx =>
    if cond nw then nw
    else if parts.isEmpty then nw
    else
      runConvD parts cond prior fuel
        (nw ++ [(parts.getD (idx % parts.length) (fun _ => ⟨"", []⟩)) (prior ++ nw)])
        (idx + 1)

/-- A fresh run of the engine on a task message. -/
def runPhase (parts : List (List Msg → Msg)) (cond : List Msg → Bool)
    (task : Msg) (fuel : Nat) : List Msg :=
  runConvD parts cond [] fuel [task] 0

/-- `MaxMessageTermination(n)`: fire once n messages have been counted. -/
def maxMsgCond (n : Nat) : List Msg → Bool := fun h => decide (n ≤ h.length)

/-- OR-composition of termination conditions (first to fire wins). -/
def orCond (a b : List Msg → Bool) : List Msg → Bool := fun h => a h || b h

/-- `CriticDecision` of chat2.py: four required fields, extra fields
ignored (pydantic default). -/
structure CriticDecision where
  approved_by_critic : Bool
  score : Int
  score_justification : List Char
  critique : List Char
deriving DecidableEq

/-- Pydantic validation `CriticDecision.model_validate(data)`. -/
def validateCriticDecision (j : Json) : Option CriticDecision :=
  match j with
  | .obj kvs =>
    match JObj.lookup kvs ("approved_by_critic".data) with
    | some (.bool b) =>
      match JObj.lookup kvs ("score".data) with
      | some (.num n) =>
        match JObj.lookup kvs ("score_justification".data) with
        | some (.str sj) =>
          match JObj.lookup kvs ("critique".data) with
          | some (.str cq) => some ⟨b, n, sj, cq⟩
          | _ => none
        | _ => none
      | _ => none
    | _ => none
  | _ => none

/-- One message check of `CriticApproval.__call__` of chat2.py: skip
falsy senders or contents, and fire when a message from the critic holds
JSON validating as a CriticDecision with `approved_by_critic` true. -/
def msgApproves (criticName : String) (m : Msg) : Bool :=
  if m.source = "" ∨ m.content = [] then false
  else if m.source = criticName then
    match jsonParse m.content with
    | some j =>
      match validateCriticDecision j with
      | some d => d.approved_by_critic
      | none => false
    | none => false
  else false

/-- The `CriticApproval` termination condition of chat2.py: fire as soon
as any message of the run approves. -/
def criticApprovalCond (criticName : String) : List Msg → Bool :=
  fun msgs => msgs.any (msgApproves criticName)

theorem runConvD_extends (parts : List (List Msg → Msg)) (cond : List Msg → Bool)
    (prior : List Msg) :
    ∀ (fuel : Nat) (nw : List Msg) (idx : Nat),
      ∃ t, runConvD parts cond prior fuel nw idx = nw ++ t := by
  intro fuel
  induction fuel with
  | zero => intro nw idx; exact ⟨[], by simp [runConvD]⟩
  | succ n ih =>
    intro nw idx
    by_cases hc : cond nw = true
    · exact ⟨[], by simp [runConvD, hc]⟩
    · by_cases he : parts.isEmpty = true
      · exact ⟨[], by simp [runConvD, hc, he]⟩
      · obtain ⟨t, ht⟩ := ih
          (nw ++ [(parts.getD (idx % parts.length) (fun _ => ⟨"", []⟩)) (prior ++ nw)])
          (idx + 1)
        refine ⟨[(parts.getD (idx % parts.length) (fun _ => ⟨"", []⟩)) (prior ++ nw)]
          ++ t, ?_⟩
        simp only [runConvD, hc, he, Bool.false_eq_true, if_false, ht,
          List.append_assoc]

theorem runConvD_len_le (parts : List (List Msg → Msg)) (p : List Msg → Bool)
    (prior : List Msg) (N : Nat) :
    ∀ (fuel : Nat) (nw : List Msg) (idx : Nat), nw.length ≤ N →
      (runConvD parts (orCond p (maxMsgCond N)) prior fuel nw idx).length ≤ N := by
  intro fuel
  induction fuel with
  | zero => intro nw idx h; simpa [runConvD] using h
  | succ n ih =>
    intro nw idx h
    by_cases hc : orCond p (maxMsgCond N) nw = true
    · simpa [runConvD, hc] using h
    · by_cases he : parts.isEmpty = true
      · simpa [runConvD, hc, he] using h
      · have hlt : nw.length < N := by
          simp only [orCond, maxMsgCond, Bool.or_eq_true, decide_eq_true_eq] at hc
          omega
        have := ih
          (nw ++ [(parts.getD (idx % parts.length) (fun _ => ⟨"", []⟩)) (prior ++ nw)])
          (idx + 1) (by simp; omega)
        simpa [runConvD, hc, he] using this

theorem runConvD_no_early_fire (parts : List (List Msg → Msg))
    (cond : List Msg → Bool) (prior : List Msg) :
    ∀ (fuel : Nat) (nw : List Msg) (idx k : Nat), nw.length ≤ k →
      k < (runConvD parts cond prior fuel nw idx).length →
      cond ((runConvD parts cond prior fuel nw idx).take k) = false := by
  intro fuel
  induction fuel with
  | zero =>
    intro nw idx k hk hlt
    rw [runConvD] at hlt
    omega
  | succ n ih =>
    intro nw idx k hk hlt
    by_cases hc : cond nw = true
    · rw [runConvD, if_pos hc] at hlt
      omega
    · by_cases he : parts.isEmpty = true
      · rw [runConvD, if_neg (by simp [hc]), if_pos he] at hlt
        omega
      · have hstep : runConvD parts cond prior (n + 1) nw idx =
            runConvD parts cond prior n
              (nw ++ [(parts.getD (idx % parts.length) (fun _ => ⟨"", []⟩)) (prior ++ nw)])
              (idx + 1) := by
          rw [runConvD, if_neg (by simp [hc]), if_neg (by simp [he])]
        rw [hstep] at hlt ⊢
        rcases Nat.lt_or_ge k (nw.length + 1) with hk2 | hk2
        · have hke : k = nw.length := by omega
          obtain ⟨t, ht⟩ := runConvD_extends parts cond prior n
            (nw ++ [(parts.getD (idx % parts.length) (fun _ => ⟨"", []⟩)) (prior ++ nw)])
            (idx + 1)
          rw [ht, hke, List.append_assoc, List.take_left]
          simpa using hc
        · exact ih
            (nw ++ [(parts.getD (idx % parts.length) (fun _ => ⟨"", []⟩)) (prior ++ nw)])
            (idx + 1) k (by simp; omega) hlt

/-- C8: for every debate run of the engine, the conversation never holds
more messages than the message-count threshold (number of participants ×
2 rounds) + 1 — the `(len(debators) + 1) * rounds + 1` of
src/teams/debate.py with rounds = 2 — whatever approval predicate is
OR-composed with the count condition and however much fuel the run is
given; and the run stops at the first message satisfying the OR-composed
condition: no proper prefix of the final conversation (beyond the task
seed) satisfies it, so a structured approval fires at its first message
even when the count threshold has not been reached. -/
theorem c8_bounded_and_first_fire (parts : List (List Msg → Msg))
    (p : List Msg → Bool) (seed : Msg) (fuel : Nat) :
    (runPhase parts (orCond p (maxMsgCond (parts.length * 2 + 1))) seed fuel).length
        ≤ parts.length * 2 + 1 ∧
    ∀ k, 1 ≤ k →
      k < (runPhase parts (orCond p (maxMsgCond (parts.length * 2 + 1))) seed
        fuel).length →
      orCond p (maxMsgCond (parts.length * 2 + 1))
          ((runPhase parts (orCond p (maxMsgCond (parts.length * 2 + 1))) seed
            fuel).take k)
        = false := by
  constructor
  · exact runConvD_len_le parts p [] (parts.length * 2 + 1) fuel [seed] 0 (by simp)
  · intro k hk hlt
    exact runConvD_no_early_fire parts (orCond p (maxMsgCond (parts.length * 2 + 1)))
      [] fuel [seed] 0 k (by simpa using hk) hlt

/-- An approving critic decision as a serialized message content. -/
def c8approve : List Char :=
  encVal (.obj (.cons ("approved_by_critic".data) (.bool true)
    (.cons ("score".data) (.num 5)
    (.cons ("score_justification".data) (.str ("g".data))
    (.cons ("critique".data) (.str []) .nil)))))

/-- A single participant that always answers with the approval. -/
def c8parts : List (List Msg → Msg) := [fun _ => ⟨"V", c8approve⟩]

def c8seed : Msg := ⟨"user", "t".data⟩

/-- Witness for C8: with one participant the threshold is 3, yet the run
stops right after the first approving message (2 messages in total), and
the prefix before that message does not satisfy the condition. -/
theorem c8_witness :
    (runPhase c8parts
        (orCond (criticApprovalCond "V") (maxMsgCond (c8parts.length * 2 + 1)))
        c8seed 9).length = 2 ∧
    orCond (criticApprovalCond "V") (maxMsgCond (c8parts.length * 2 + 1))
        ((runPhase c8parts
          (orCond (criticApprovalCond "V") (maxMsgCond (c8parts.length * 2 + 1)))
          c8seed 9).take 1) = false :=
  ⟨by decide,
    (c8_bounded_and_first_fire c8parts (criticApprovalCond "V") c8seed 9).2 1
      (by decide) (by decide)⟩

/-! ### Debate.run_single_verse_debate of src/teams/debate.py -/

/-- The closing-phase instruction prompt passed as the task of the second
run (the triple-quoted string of debate.py, with its newlines and
indentation). -/
def closingTaskText : List Char :=
  ("\n            Now we transition to closing statements. \n            Participants, please give your closing statement providing all details to justify your final score.\n        ").data

/-- `Debate.run_single_verse_debate` around the engine: a first run on
the initial context bounded by `(len(debators) + 1) * rounds + 1` with
rounds = 2, whose messages after the first (the seed) become the Debate
array; then, after resetting the termination to `len(debators) + 1`, a
second run on the closing instruction continuing the same history, ALL of
whose messages — its seed included — become the Closing_Statements
array. -/
def runSingleVerseDebate (debators : List (List Msg → Msg))
    (moderator : List Msg → Msg) (initialContext : List Char)
    (fuel1 fuel2 : Nat) : List (List Char) × List (List Char) :=
  let parts := debators ++ [moderator]
  let debateRounds := (debators.length + 1) * 2 + 1
  let h1 := runConvD parts (maxMsgCond debateRounds) [] fuel1
    [⟨"user", initialContext⟩] 0
  let debate := (h1.drop 1).map (fun m => m.content)
  let h2new := runConvD parts (maxMsgCond (debators.length + 1)) h1 fuel2
    [⟨"user", closingTaskText⟩] (h1.length - 1)
  let closing := h2new.map (fun m => m.content)
  (debate, closing)

/-- C10: the serialized Closing_Statements of every debate row start with
the closing-phase instruction prompt itself (the closing run's messages
are captured in full, its seed task message included), and that prompt
contains the marker "Now we transition" — one non-data instructional
string per row — whereas the Debate array drops exactly one message of
the first run, its seed (messages after the first only). -/
theorem c10_closing_contains_instruction (debators : List (List Msg → Msg))
    (moderator : List Msg → Msg) (ctx : List Char) (fuel1 fuel2 : Nat) :
    (runSingleVerseDebate debators moderator ctx fuel1 fuel2).2.head?
        = some closingTaskText ∧
    closingTaskText ∈ (runSingleVerseDebate debators moderator ctx fuel1 fuel2).2 ∧
    hasSub phraseNT closingTaskText = true ∧
    (runSingleVerseDebate debators moderator ctx fuel1 fuel2).1.length + 1 =
      (runConvD (debators ++ [moderator])
        (maxMsgCond ((debators.length + 1) * 2 + 1)) [] fuel1
        [⟨"user", ctx⟩] 0).length := by
  obtain ⟨t2, ht2⟩ := runConvD_extends (debators ++ [moderator])
    (maxMsgCond (debators.length + 1))
    (runConvD (debators ++ [moderator]) (maxMsgCond ((debators.length + 1) * 2 + 1))
      [] fuel1 [⟨"user", ctx⟩] 0)
    fuel2 [⟨"user", closingTaskText⟩]
    ((runConvD (debators ++ [moderator]) (maxMsgCond ((debators.length + 1) * 2 + 1))
      [] fuel1 [⟨"user", ctx⟩] 0).length - 1)
  obtain ⟨t1, ht1⟩ := runConvD_extends (debators ++ [moderator])
    (maxMsgCond ((debators.length + 1) * 2 + 1)) [] fuel1 [⟨"user", ctx⟩] 0
  have hhead : (runSingleVerseDebate debators moderator ctx fuel1 fuel2).2.head?
      = some closingTaskText := by
    simp only [runSingleVerseDebate, ht2, List.cons_append, List.nil_append,
      List.map_cons, List.head?_cons]
  refine ⟨hhead, ?_, by decide, ?_⟩
  · have hcons := List.eq_cons_of_mem_head? (by rw [hhead]; rfl)
    rw [hcons]
    exact List.mem_cons_self _ _
  · simp only [runSingleVerseDebate, List.length_map, List.length_drop, ht1]
    simp
